import Mathlib

/-!
Verification of the schedule-planner program in app_planificador.py.

The file shallowly embeds the core functions of the program — the time
parser, the catalog construction (melt over the six weekday columns plus
per-cell parsing), the conflict checker, the idle-time scorer, the
combination search engine, the elective helper, and the loop of the
intelligent mode — as executable Lean functions over lists, and proves
the behavioural properties stated in the specification.

Modelling conventions, all taken from the Python source:
  - a pandas row becomes a structure; a dataframe becomes a list of rows,
    and every pandas filtering operation becomes List.filter, which keeps
    the original order, exactly as boolean-mask selection does;
  - Series.unique, which keeps the first occurrence of each value in
    order, becomes uniqueFirst below;
  - list.sort with a key is a stable sort by a total preorder; a stable
    sorted permutation of a list under a total preorder is unique, so the
    structural List.insertionSort of Mathlib (stable, sorted) denotes the
    same function and, unlike the well-founded mergeSort of core, reduces
    inside the kernel;
  - Python compares the day strings of the sort key by code points; this
    is charsLt below over the character lists of the strings;
  - machine integers are Nat: all minute values in the program arise from
    digits, so they are non-negative, and the single subtraction the code
    performs is guarded by a positivity test, which makes truncated Nat
    subtraction agree with Python subtraction at every use.
-/

namespace Planificador

/-! ### Generic helpers -/

/-- First-occurrence deduplication: the semantics of pandas Series.unique,
which keeps the first occurrence of each value in encounter order. -/
def uniqueFirstAux {α : Type} [DecidableEq α] (seen : List α) : List α → List α
  | [] => []
  | a :: l =>
    if a ∈ seen then uniqueFirstAux seen l
    else a :: uniqueFirstAux (a :: seen) l

/-- Deduplicate a list, keeping the first occurrence of each element. -/
def uniqueFirst {α : Type} [DecidableEq α] (l : List α) : List α :=
  uniqueFirstAux [] l

/-- Code-point lexicographic comparison of character lists: the comparison
Python performs on the strings of the sort keys. -/
def charsLt : List Char → List Char → Bool
  | [], [] => false
  | [], _ :: _ => true
  | _ :: _, [] => false
  | a :: as, b :: bs =>
    if a.toNat < b.toNat then true
    else if b.toNat < a.toNat then false
    else charsLt as bs

/-- Python string comparison, by code points, left to right. -/
def pyStrLt (s t : String) : Bool := charsLt s.data t.data

/-- The cartesian product of a list of lists, in the enumeration order of
itertools.product: the first factor varies slowest. -/
def cartProd {α : Type} : List (List α) → List (List α)
  | [] => [[]]
  | xs :: rest => xs.flatMap (fun x => (cartProd rest).map (fun c => x :: c))

/-- All size-n combinations of a list, in the enumeration order of
itertools.combinations: subsequences of the input, lexicographic by
position. -/
def combinationsL {α : Type} : Nat → List α → List (List α)
  | 0, _ => [[]]
  | _ + 1, [] => []
  | n + 1, x :: xs =>
    (combinationsL n xs).map (fun c => x :: c) ++ combinationsL (n + 1) xs

/-! ### The time parser (parse_time_to_minutes) -/

/-- Numeric value of a digit character. -/
def digitVal (c : Char) : Nat := c.toNat - 48

/-- One attempt of the regular expression (\d{1,2}),(\d{2}) at the head of
the character list: the two-digit hour is tried first (greedy \d{1,2}),
then the one-digit hour; on success the value pair and the remaining
characters are returned. -/
def matchAt : List Char → Option (Nat × Nat × List Char)
  | c1 :: c2 :: c3 :: c4 :: c5 :: rest =>
    if c1.isDigit && c2.isDigit && c3 == ',' && c4.isDigit && c5.isDigit then
      some (digitVal c1 * 10 + digitVal c2, digitVal c4 * 10 + digitVal c5, rest)
    else if c1.isDigit && c2 == ',' && c3.isDigit && c4.isDigit then
      some (digitVal c1, digitVal c3 * 10 + digitVal c4, c5 :: rest)
    else none
  | [c1, c2, c3, c4] =>
    if c1.isDigit && c2 == ',' && c3.isDigit && c4.isDigit then
      some (digitVal c1, digitVal c3 * 10 + digitVal c4, [])
    else none
  | _ => none

/-- Scan of re.findall: try a match at every position, left to right,
resuming after the end of each match.  The fuel argument is the length of
the initial list; every step consumes at least one character, so the fuel
never runs out. -/
def findPairsAux : Nat → List Char → List (Nat × Nat)
  | 0, _ => []
  | _ + 1, [] => []
  | fuel + 1, c :: rest =>
    match matchAt (c :: rest) with
    | some (h, m, restAfter) => (h, m) :: findPairsAux fuel restAfter
    | none => findPairsAux fuel rest

/-- All matches of (\d{1,2}),(\d{2}) in the character list, as
(hour, minute) value pairs, in order. -/
def findPairs (cs : List Char) : List (Nat × Nat) :=
  findPairsAux cs.length cs

/-- The cleaning step of the parser: time_str.replace of every space by
the empty string. -/
def cleanChars (s : String) : List Char :=
  s.data.filter (fun c => c ≠ ' ')

/-- parse_time_to_minutes: strip spaces, find the (\d{1,2}),(\d{2})
matches, and if there are exactly two, convert each to minutes since
midnight; otherwise return none. -/
def parse_time_to_minutes (time_str : String) : Option (Nat × Nat) :=
  match findPairs (cleanChars time_str) with
  | [(h1, m1), (h2, m2)] => some (h1 * 60 + m1, h2 * 60 + m2)
  | _ => none

/-! ### The data model and catalog construction -/

/-- One row of the processed dataframe df_final: one session of one group
of one subject on one day. -/
structure Session where
  Semestre : Int
  Materia : String
  Grupo : String
  Turno : String
  Dia : String
  Inicio_Min : Nat
  Fin_Min : Nat
deriving DecidableEq

/-- One row of the raw CSV after the column check: the id columns plus the
six weekday cells, each either absent (NaN) or a raw time string. -/
structure RawRow where
  Semestre : Int
  Materia : String
  Turno : String
  Grupo : String
  Lunes : Option String
  Martes : Option String
  Miercoles : Option String
  Jueves : Option String
  Viernes : Option String
  Sabado : Option String
deriving DecidableEq

/-- One day-block of the pandas melt: for a fixed weekday column, each raw
row whose cell parses becomes a Session; rows with an absent cell (the
pd.isna branch of the parser) or an unparsable cell are dropped, as
dropna does. -/
def meltDay (rows : List RawRow) (d : String) (cell : RawRow → Option String) :
    List Session :=
  rows.filterMap (fun r =>
    match (cell r).bind parse_time_to_minutes with
    | some (i, e) =>
      some { Semestre := r.Semestre, Materia := r.Materia, Grupo := r.Grupo,
             Turno := r.Turno, Dia := d, Inicio_Min := i, Fin_Min := e }
    | none => none)

/-- load_and_preprocess_data after the file read and the column check:
melt over the six weekday columns (pandas melt stacks the blocks of the
value columns in order), parse each cell, drop the failures. -/
def load_and_preprocess_data (rows : List RawRow) : List Session :=
  meltDay rows "Lunes" RawRow.Lunes ++
  meltDay rows "Martes" RawRow.Martes ++
  meltDay rows "Miercoles" RawRow.Miercoles ++
  meltDay rows "Jueves" RawRow.Jueves ++
  meltDay rows "Viernes" RawRow.Viernes ++
  meltDay rows "Sabado" RawRow.Sabado

/-! ### The conflict checker (check_conflict) -/

/-- The sort key order of check_conflict and calculate_gaps: the Python
tuple comparison of (Dia, Inicio_Min), day strings by code points. -/
def sessLe (a b : Session) : Prop :=
  pyStrLt a.Dia b.Dia = true ∨ (a.Dia = b.Dia ∧ a.Inicio_Min ≤ b.Inicio_Min)

instance : DecidableRel sessLe := fun a b =>
  inferInstanceAs (Decidable (pyStrLt a.Dia b.Dia = true ∨
    (a.Dia = b.Dia ∧ a.Inicio_Min ≤ b.Inicio_Min)))

/-- The loop of check_conflict over the sorted list: an adjacent pair on
the same day conflicts when the second starts strictly before the first
ends. -/
def conflictPass : List Session → Bool
  | c1 :: c2 :: rest =>
    (c1.Dia == c2.Dia && decide (c2.Inicio_Min < c1.Fin_Min)) ||
      conflictPass (c2 :: rest)
  | _ => false

/-- check_conflict: sort by (day, start) and scan adjacent pairs. -/
def check_conflict (schedule : List Session) : Bool :=
  conflictPass (schedule.insertionSort sessLe)

/-! ### The idle-time scorer (calculate_gaps) -/

/-- The loop of calculate_gaps over the sorted list: each same-day
adjacent pair adds its gap if that gap is positive. -/
def gapPass : List Session → Nat
  | c1 :: c2 :: rest =>
    (if c1.Dia = c2.Dia then
      (if 0 < c2.Inicio_Min - c1.Fin_Min then c2.Inicio_Min - c1.Fin_Min else 0)
     else 0) + gapPass (c2 :: rest)
  | _ => 0

/-- calculate_gaps: sort by (day, start) and sum positive same-day gaps. -/
def calculate_gaps (schedule : List Session) : Nat :=
  gapPass (schedule.insertionSort sessLe)

/-- Two sessions overlap when they are on the same day and their half-open
minute intervals intersect. -/
def Overlaps (a b : Session) : Prop :=
  a.Dia = b.Dia ∧ a.Inicio_Min < b.Fin_Min ∧ b.Inicio_Min < a.Fin_Min

instance : DecidableRel Overlaps := fun a b =>
  inferInstanceAs (Decidable (a.Dia = b.Dia ∧ a.Inicio_Min < b.Fin_Min ∧
    b.Inicio_Min < a.Fin_Min))

/-- The sort key of the two scans: the (day, start) pair. -/
def sessKey (s : Session) : String × Nat := (s.Dia, s.Inicio_Min)

/-- The specification of the idle sum on an already sorted list, written
with integer max as the specification states it: every same-day adjacent
pair contributes the larger of zero and its signed gap. -/
def gapsSpecInt : List Session → Int
  | c1 :: c2 :: rest =>
    (if c1.Dia = c2.Dia then
      max 0 ((c2.Inicio_Min : Int) - (c1.Fin_Min : Int))
     else 0) + gapsSpecInt (c2 :: rest)
  | _ => 0

/-! ### The combination search engine (find_schedules) -/

/-- One group option of one subject: the dictionary the engine builds,
holding the subject name, the group identifier, and every session of that
group. -/
structure GroupOption where
  Materia : String
  Grupo : String
  Clases : List Session
deriving DecidableEq

/-- The three-way return of find_schedules, as a sum: the ranked list, or
one of the two typed validation failures with its offending names. -/
inductive FindResult where
  | invalidName (names : List String)
  | noGroupsInShift (names : List String)
  | ok (schedules : List (Nat × List GroupOption))
deriving DecidableEq

/-- The shift filter of the engine: the Matutino and Tarde options keep
only their letter, any other value (Mixto) keeps everything. -/
def turnoMatches (turno_filter t : String) : Bool :=
  if turno_filter = "Matutino (M)" then t == "M"
  else if turno_filter = "Tarde (T)" then t == "T"
  else true

/-- The distinct subject names of the catalog, in first-appearance order
(df_processed column Materia, Series.unique). -/
def materiasEnCsv (df : List Session) : List String :=
  uniqueFirst (df.map (fun r => r.Materia))

/-- The requested subjects absent from the catalog, in request order: the
list the INVALID_NAME failure carries. -/
def materiasInvalidas (df : List Session) (subject_list : List String) :
    List String :=
  subject_list.filter (fun s => !((materiasEnCsv df).contains s))

/-- The distinct groups of one subject surviving the shift filter, in
first-appearance order. -/
def gruposDe (df : List Session) (subject_name turno_filter : String) :
    List String :=
  uniqueFirst
    (((df.filter (fun r => r.Materia == subject_name)).filter
        (fun r => turnoMatches turno_filter r.Turno)).map (fun r => r.Grupo))

/-- The requested subjects left with no group under the shift filter: the
list the NO_GROUPS_IN_SHIFT failure carries. -/
def sinGrupos (df : List Session) (subject_list : List String)
    (turno_filter : String) : List String :=
  subject_list.filter (fun s => (gruposDe df s turno_filter).isEmpty)

/-- The group options of one subject: one entry per surviving group, each
with every catalog session of that (subject, group) pair — the sessions
are taken from the unfiltered catalog, exactly as the source does. -/
def subjectOptions (df : List Session) (subject_name turno_filter : String) :
    List GroupOption :=
  (gruposDe df subject_name turno_filter).map (fun g =>
    { Materia := subject_name, Grupo := g,
      Clases := df.filter (fun r => r.Materia == subject_name && r.Grupo == g) })

/-- The per-subject option lists the loop of find_schedules accumulates:
one entry per requested subject that still has groups, in request order. -/
def allSubjectGroups (df : List Session) (subject_list : List String)
    (turno_filter : String) : List (List GroupOption) :=
  (subject_list.filter (fun s => !(gruposDe df s turno_filter).isEmpty)).map
    (fun s => subjectOptions df s turno_filter)

/-- Every candidate combination: the cartesian product over the
per-subject option lists, in itertools.product order. -/
def candidateCombos (df : List Session) (subject_list : List String)
    (turno_filter : String) : List (List GroupOption) :=
  cartProd (allSubjectGroups df subject_list turno_filter)

/-- Flattening of one combination into the full schedule its sessions
form, in combination order (the extend loop of the source). -/
def flattenCombo (combination : List GroupOption) : List Session :=
  combination.flatMap (fun g => g.Clases)

/-- The surviving scored combinations in generation order, before the
final sort: each conflict-free candidate paired with its gap score. -/
def validSchedules (df : List Session) (subject_list : List String)
    (turno_filter : String) : List (Nat × List GroupOption) :=
  (candidateCombos df subject_list turno_filter).filterMap (fun c =>
    if check_conflict (flattenCombo c) then none
    else some (calculate_gaps (flattenCombo c), c))

/-- The final ranking order of find_schedules: ascending gap score. -/
def scoreLe (a b : Nat × List GroupOption) : Prop := a.1 ≤ b.1

instance : DecidableRel scoreLe := fun a b =>
  inferInstanceAs (Decidable (a.1 ≤ b.1))

/-- find_schedules: validate the names, validate the shift filter, build
the per-subject options, enumerate the cartesian product, discard the
conflicting combinations, and return the survivors stably sorted by gap
score.  The guard before the product is the literal guard of the source
(an empty or mismatched option list yields an empty result). -/
def find_schedules (df : List Session) (subject_list : List String)
    (turno_filter : String) : FindResult :=
  if materiasInvalidas df subject_list ≠ [] then
    .invalidName (materiasInvalidas df subject_list)
  else if sinGrupos df subject_list turno_filter ≠ [] then
    .noGroupsInShift (sinGrupos df subject_list turno_filter)
  else if (allSubjectGroups df subject_list turno_filter).isEmpty ||
      (allSubjectGroups df subject_list turno_filter).length ≠ subject_list.length then
    .ok []
  else
    .ok ((validSchedules df subject_list turno_filter).insertionSort scoreLe)

/-! ### The elective helper and the intelligent mode of run_app -/

/-- The cap of the intelligent mode: only the TOP_N_FLEXIBLES most
flexible electives are analysed. -/
def TOP_N_FLEXIBLES : Nat := 8

/-- The distinct elective subjects (semester 0) present under the shift
filter, in first-appearance order: the index set of the flexibility
Series of get_available_optatives. -/
def availableElectives (df : List Session) (turno : String) : List String :=
  uniqueFirst
    (((df.filter (fun r => r.Semestre == 0)).filter
        (fun r => turnoMatches turno r.Turno)).map (fun r => r.Materia))

/-- Descending order on the group counts, the sort key of
get_available_optatives. -/
def countGe (a b : String × Nat) : Prop := b.2 ≤ a.2

instance : DecidableRel countGe := fun a b =>
  inferInstanceAs (Decidable (b.2 ≤ a.2))

/-- get_available_optatives: the semester-0 rows under the shift filter,
grouped by subject with the distinct-group count of each, sorted by count
descending.  The relative order of subjects with equal counts is
implementation-defined in the source (pandas sort_values uses an unstable
sort); the claims about this function depend only on the multiset of
entries and on the length, which any descending sort realises. -/
def get_available_optatives (df : List Session) (turno : String) :
    List (String × Nat) :=
  ((availableElectives df turno).map (fun m =>
      (m, (uniqueFirst ((((df.filter (fun r => r.Semestre == 0)).filter
            (fun r => turnoMatches turno r.Turno)).filter
              (fun r => r.Materia == m)).map (fun r => r.Grupo))).length))).insertionSort
    countGe

/-- The subject names of the head of the flexibility Series: the top
TOP_N_FLEXIBLES most flexible electives of the intelligent mode. -/
def topFlexible (df : List Session) (turno : String) : List String :=
  ((get_available_optatives df turno).map (fun p => p.1)).take TOP_N_FLEXIBLES

/-- The guard and the subset enumeration of the intelligent mode: none is
the InsufficientElectives error (fewer flexible electives than requested),
otherwise the full combination list over the top flexible electives. -/
def ia_setup (df : List Session) (turno : String) (num_to_select : Nat) :
    Option (List (List String)) :=
  if (topFlexible df turno).length < num_to_select then none
  else some (combinationsL num_to_select (topFlexible df turno))

/-- The step of the best-tracking loop of the intelligent mode: the score
of a new candidate replaces the current best only when strictly lower
(the first candidate replaces the infinite initial score). -/
def iaStep (best : Option (Nat × List GroupOption))
    (s : Nat × List GroupOption) : Option (Nat × List GroupOption) :=
  match best with
  | none => some s
  | some b => if s.1 < b.1 then some s else some b

/-- The loop body of the intelligent mode over one elective combination:
find_schedules on the mandatory subjects plus the combination; a failure
or an empty list leaves the best unchanged (the falsy test of the
source), a non-empty list offers its first (best) entry. -/
def iaVisit (df : List Session) (mandatory : List String) (turno : String)
    (best : Option (Nat × List GroupOption)) (opt_combo : List String) :
    Option (Nat × List GroupOption) :=
  match find_schedules df (mandatory ++ opt_combo) turno with
  | .ok (s :: _) => iaStep best s
  | _ => best

/-- The whole best-tracking loop of the intelligent mode of run_app, over
a given list of elective combinations: fold of iaVisit from no best. -/
def run_app_ia (df : List Session) (mandatory : List String) (turno : String)
    (optativa_combinations : List (List String)) :
    Option (Nat × List GroupOption) :=
  optativa_combinations.foldl (iaVisit df mandatory turno) none

/-- The best entry each elective combination contributes, in enumeration
order: the head of its non-empty find_schedules result, skipping failures
and empty results. -/
def iaBests (df : List Session) (mandatory : List String) (turno : String)
    (optativa_combinations : List (List String)) :
    List (Nat × List GroupOption) :=
  optativa_combinations.filterMap (fun opt_combo =>
    match find_schedules df (mandatory ++ opt_combo) turno with
    | .ok (s :: _) => some s
    | _ => none)

/-- The first minimum of a scored list: r occurs in l, everything before
that occurrence scores strictly higher, everything after scores no
lower.  This is the element the best-tracking loop returns. -/
def IsFirstMin (r : Nat × List GroupOption)
    (l : List (Nat × List GroupOption)) : Prop :=
  ∃ l1 l2, l = l1 ++ r :: l2 ∧ (∀ b ∈ l1, r.1 < b.1) ∧ (∀ b ∈ l2, r.1 ≤ b.1)

/-! ### Lemmas: uniqueFirst -/

theorem mem_uniqueFirstAux {α : Type} [DecidableEq α] (l : List α) :
    ∀ (seen : List α) (x : α),
      x ∈ uniqueFirstAux seen l ↔ x ∈ l ∧ x ∉ seen := by
  induction l with
  | nil => intro seen x; simp [uniqueFirstAux]
  | cons a l ih =>
    intro seen x
    by_cases ha : a ∈ seen
    · simp only [uniqueFirstAux, if_pos ha, ih, List.mem_cons]
      constructor
      · rintro ⟨hx, hs⟩; exact ⟨Or.inr hx, hs⟩
      · rintro ⟨hx | hx, hs⟩
        · exact absurd (hx ▸ ha) hs
        · exact ⟨hx, hs⟩
    · simp only [uniqueFirstAux, if_neg ha, List.mem_cons, ih]
      by_cases hxa : x = a
      · subst hxa; simp [ha]
      · simp only [hxa, false_or]

theorem mem_uniqueFirst {α : Type} [DecidableEq α] (l : List α) (x : α) :
    x ∈ uniqueFirst l ↔ x ∈ l := by
  simp [uniqueFirst, mem_uniqueFirstAux]

theorem nodup_uniqueFirstAux {α : Type} [DecidableEq α] (l : List α) :
    ∀ seen : List α, (uniqueFirstAux seen l).Nodup := by
  induction l with
  | nil => intro seen; simp [uniqueFirstAux]
  | cons a l ih =>
    intro seen
    by_cases ha : a ∈ seen
    · simpa [uniqueFirstAux, if_pos ha] using ih seen
    · simp only [uniqueFirstAux, if_neg ha]
      refine List.Nodup.cons ?_ (ih (a :: seen))
      intro hmem
      exact ((mem_uniqueFirstAux l (a :: seen) a).mp hmem).2 (List.mem_cons_self a seen)

theorem nodup_uniqueFirst {α : Type} [DecidableEq α] (l : List α) :
    (uniqueFirst l).Nodup :=
  nodup_uniqueFirstAux l []

theorem uniqueFirst_eq_nil {α : Type} [DecidableEq α] (l : List α) :
    uniqueFirst l = [] ↔ l = [] := by
  cases l with
  | nil => simp [uniqueFirst, uniqueFirstAux]
  | cons a l => simp [uniqueFirst, uniqueFirstAux]

/-! ### Lemmas: the code-point order on day strings -/

theorem charsLt_trans :
    ∀ a b c : List Char, charsLt a b = true → charsLt b c = true →
      charsLt a c = true := by
  intro a
  induction a with
  | nil =>
    intro b c hab hbc
    cases b with
    | nil => exact absurd hab (by simp [charsLt])
    | cons y bs =>
      cases c with
      | nil => exact absurd hbc (by simp [charsLt])
      | cons z cs => simp [charsLt]
  | cons x as ih =>
    intro b c hab hbc
    cases b with
    | nil => exact absurd hab (by simp [charsLt])
    | cons y bs =>
      cases c with
      | nil => exact absurd hbc (by simp [charsLt])
      | cons z cs =>
        simp only [charsLt] at hab hbc ⊢
        by_cases hxy : x.toNat < y.toNat
        · by_cases hyz : y.toNat < z.toNat
          · rw [if_pos (by omega)]
          · simp only [if_pos hxy] at hab
            simp only [if_neg hyz] at hbc
            by_cases hzy : z.toNat < y.toNat
            · simp only [if_pos hzy] at hbc; exact absurd hbc (by simp)
            · rw [if_pos (by omega)]
        · simp only [if_neg hxy] at hab
          by_cases hyx : y.toNat < x.toNat
          · simp only [if_pos hyx] at hab; exact absurd hab (by simp)
          · simp only [if_neg hyx] at hab
            by_cases hyz : y.toNat < z.toNat
            · rw [if_pos (by omega)]
            · simp only [if_neg hyz] at hbc
              by_cases hzy : z.toNat < y.toNat
              · simp only [if_pos hzy] at hbc; exact absurd hbc (by simp)
              · simp only [if_neg hzy] at hbc
                rw [if_neg (by omega), if_neg (by omega)]
                exact ih bs cs hab hbc

theorem charsLt_asymm :
    ∀ a b : List Char, charsLt a b = true → charsLt b a = false := by
  intro a
  induction a with
  | nil =>
    intro b hab
    cases b with
    | nil => exact absurd hab (by simp [charsLt])
    | cons y bs => simp [charsLt]
  | cons x as ih =>
    intro b hab
    cases b with
    | nil => exact absurd hab (by simp [charsLt])
    | cons y bs =>
      simp only [charsLt] at hab ⊢
      by_cases hxy : x.toNat < y.toNat
      · rw [if_neg (by omega), if_pos (by omega)]
      · simp only [if_neg hxy] at hab
        by_cases hyx : y.toNat < x.toNat
        · simp only [if_pos hyx] at hab; exact absurd hab (by simp)
        · simp only [if_neg hyx] at hab
          rw [if_neg (by omega), if_neg (by omega)]
          exact ih bs hab

theorem charsLt_eq_of_not_lt :
    ∀ a b : List Char, charsLt a b = false → charsLt b a = false → a = b := by
  intro a
  induction a with
  | nil =>
    intro b hab _
    cases b with
    | nil => rfl
    | cons y bs => exact absurd hab (by simp [charsLt])
  | cons x as ih =>
    intro b hab hba
    cases b with
    | nil => exact absurd hba (by simp [charsLt])
    | cons y bs =>
      simp only [charsLt] at hab hba
      by_cases hxy : x.toNat < y.toNat
      · simp [if_pos hxy] at hab
      · by_cases hyx : y.toNat < x.toNat
        · simp [if_pos hyx] at hba
        · simp only [if_neg hxy, if_neg hyx] at hab
          simp only [if_neg hyx, if_neg hxy] at hba
          have hxyeq : x = y := by
            have : x.toNat = y.toNat := by omega
            exact Char.eq_of_val_eq (by
              have : x.val.toNat = y.val.toNat := this
              exact UInt32.toNat.inj this)
          rw [hxyeq, ih bs hab hba]

theorem pyStrLt_eq_of_not_lt (s t : String) (hst : pyStrLt s t = false)
    (hts : pyStrLt t s = false) : s = t :=
  String.ext (charsLt_eq_of_not_lt s.data t.data hst hts)

/-! ### Lemmas: the session sort order -/

instance : IsTrans Session sessLe := by
  constructor
  intro a b c hab hbc
  rcases hab with hab | ⟨hab, hab2⟩
  · rcases hbc with hbc | ⟨hbc, _⟩
    · exact Or.inl (charsLt_trans _ _ _ hab hbc)
    · exact Or.inl (by rw [pyStrLt] at hab ⊢; rw [← hbc]; exact hab)
  · rcases hbc with hbc | ⟨hbc, hbc2⟩
    · exact Or.inl (by rw [pyStrLt] at hbc ⊢; rw [hab]; exact hbc)
    · exact Or.inr ⟨hab.trans hbc, le_trans hab2 hbc2⟩

instance : IsTotal Session sessLe := by
  constructor
  intro a b
  by_cases hab : pyStrLt a.Dia b.Dia = true
  · exact Or.inl (Or.inl hab)
  · by_cases hba : pyStrLt b.Dia a.Dia = true
    · exact Or.inr (Or.inl hba)
    · have hd : a.Dia = b.Dia :=
        pyStrLt_eq_of_not_lt _ _ (by simpa using hab) (by simpa using hba)
      rcases Nat.le_total a.Inicio_Min b.Inicio_Min with h | h
      · exact Or.inl (Or.inr ⟨hd, h⟩)
      · exact Or.inr (Or.inr ⟨hd.symm, h⟩)

/-- Two sessions below each other in the sort order share their whole
sort key. -/
theorem sessLe_antisymm_key {a b : Session} (hab : sessLe a b)
    (hba : sessLe b a) : a.Dia = b.Dia ∧ a.Inicio_Min = b.Inicio_Min := by
  rcases hab with hab | ⟨hab, hab2⟩
  · have hfalse : charsLt b.Dia.data a.Dia.data = false := charsLt_asymm _ _ hab
    rcases hba with hba | ⟨hba, _⟩
    · exact absurd hba (by simp [pyStrLt, hfalse])
    · exfalso
      have h1 : charsLt a.Dia.data a.Dia.data = true := by
        have h := hab; rw [pyStrLt, hba] at h; exact h
      exact absurd h1 (by simp [charsLt_asymm _ _ h1])
  · rcases hba with hba | ⟨hba, hba2⟩
    · exfalso
      have h1 : charsLt b.Dia.data b.Dia.data = true := by
        have h := hba; rw [pyStrLt, hab] at h; exact h
      exact absurd h1 (by simp [charsLt_asymm _ _ h1])
    · exact ⟨hab, le_antisymm hab2 hba2⟩

/-- A session strictly earlier in the day order is on a day that is not
later: sessLe compares the day first. -/
theorem sessLe_day {a b : Session} (hab : sessLe a b) :
    pyStrLt a.Dia b.Dia = true ∨ a.Dia = b.Dia := by
  rcases hab with hab | ⟨hab, _⟩
  · exact Or.inl hab
  · exact Or.inr hab

/-! ### Lemmas: the conflict checker -/

theorem charsLt_irrefl (a : List Char) : charsLt a a = false := by
  cases h : charsLt a a with
  | false => rfl
  | true =>
    have h2 := charsLt_asymm a a h
    rw [h] at h2
    exact h2

theorem Overlaps.symm {a b : Session} (h : Overlaps a b) : Overlaps b a :=
  ⟨h.1.symm, h.2.2, h.2.1⟩

/-- In a sorted, non-degenerate, adjacent-conflict-free list, every pair
of same-day sessions is separated: the earlier one ends before the later
one starts. -/
theorem pairwise_sep_of_conflictPass (l : List Session)
    (hsort : l.Pairwise sessLe)
    (hnd : ∀ s ∈ l, s.Inicio_Min < s.Fin_Min)
    (hpass : conflictPass l = false) :
    l.Pairwise (fun a b => a.Dia = b.Dia → a.Fin_Min ≤ b.Inicio_Min) := by
  induction l with
  | nil => exact List.Pairwise.nil
  | cons a t ih =>
    cases t with
    | nil => simp
    | cons b t' =>
      have hpass' : conflictPass (b :: t') = false := by
        simp only [conflictPass, Bool.or_eq_false_iff] at hpass
        exact hpass.2
      have hadj : a.Dia = b.Dia → a.Fin_Min ≤ b.Inicio_Min := by
        intro hd
        simp only [conflictPass, Bool.or_eq_false_iff, Bool.and_eq_false_iff] at hpass
        rcases hpass.1 with h | h
        · exact absurd hd (by simpa using h)
        · simpa using Nat.le_of_not_lt (by simpa using h)
      have hsort' : (b :: t').Pairwise sessLe := hsort.tail
      have ihP := ih hsort' (fun s hs => hnd s (List.mem_cons_of_mem a hs)) hpass'
      refine List.Pairwise.cons ?_ ihP
      intro c hc hdc
      rcases List.mem_cons.mp hc with rfl | hc'
      · exact hadj hdc
      · -- c lies beyond b; the day of b is sandwiched between equal days
        have hab : sessLe a b := (List.pairwise_cons.mp hsort).1 b (List.mem_cons_self b t')
        have hbc : sessLe b c :=
          (List.pairwise_cons.mp hsort').1 c hc'
        have hdb : a.Dia = b.Dia := by
          rcases sessLe_day hab with h1 | h1
          · exfalso
            rcases sessLe_day hbc with h2 | h2
            · have h3 := charsLt_trans _ _ _ h1 h2
              rw [hdc] at h3
              exact absurd h3 (by simp [charsLt_irrefl])
            · simp only [pyStrLt] at h1
              rw [h2, hdc] at h1
              exact absurd h1 (by simp [charsLt_irrefl])
          · exact h1
        have hPbc : b.Dia = c.Dia → b.Fin_Min ≤ c.Inicio_Min :=
          (List.pairwise_cons.mp ihP).1 c hc'
        have hndb : b.Inicio_Min < b.Fin_Min :=
          hnd b (List.mem_cons_of_mem a (List.mem_cons_self b t'))
        have h1 : a.Fin_Min ≤ b.Inicio_Min := hadj hdb
        have h2 : b.Fin_Min ≤ c.Inicio_Min := hPbc (hdb ▸ hdc)
        omega

/-- Conversely, a sorted non-degenerate list with no overlapping pair
passes the adjacent scan. -/
theorem conflictPass_false_of_pairwise (l : List Session)
    (hsort : l.Pairwise sessLe)
    (hnd : ∀ s ∈ l, s.Inicio_Min < s.Fin_Min)
    (hpw : l.Pairwise (fun a b => ¬ Overlaps a b)) :
    conflictPass l = false := by
  induction l with
  | nil => rfl
  | cons a t ih =>
    cases t with
    | nil => rfl
    | cons b t' =>
      have htail : conflictPass (b :: t') = false :=
        ih hsort.tail (fun s hs => hnd s (List.mem_cons_of_mem a hs)) hpw.tail
      simp only [conflictPass, Bool.or_eq_false_iff, Bool.and_eq_false_iff]
      refine ⟨?_, htail⟩
      by_cases hd : a.Dia = b.Dia
      · right
        have hnov : ¬ Overlaps a b :=
          (List.pairwise_cons.mp hpw).1 b (List.mem_cons_self b t')
        have hab : sessLe a b := (List.pairwise_cons.mp hsort).1 b (List.mem_cons_self b t')
        have hstart : a.Inicio_Min ≤ b.Inicio_Min := by
          rcases hab with h | ⟨_, h⟩
          · exfalso
            rw [pyStrLt, hd] at h
            exact absurd h (by simp [charsLt_irrefl])
          · exact h
        have hndb : b.Inicio_Min < b.Fin_Min := hnd b (by simp)
        simp only [decide_eq_false_iff_not, Nat.not_lt]
        by_contra hlt
        push_neg at hlt
        exact hnov ⟨hd, by omega, by omega⟩
      · left
        simpa using hd

/-- C1: for every list of sessions satisfying the data-model invariant
(end after start), check_conflict returns false if and only if no two
sessions of the list share a day with overlapping half-open intervals;
in particular the adjacent-pair scan after sorting by (day, start)
decides overlap of arbitrary pairs, and back-to-back sessions are never
flagged. -/
theorem check_conflict_false_iff (S : List Session)
    (hnd : ∀ s ∈ S, s.Inicio_Min < s.Fin_Min) :
    check_conflict S = false ↔ S.Pairwise (fun a b => ¬ Overlaps a b) := by
  have hperm : (S.insertionSort sessLe).Perm S := S.perm_insertionSort sessLe
  have hsort : (S.insertionSort sessLe).Pairwise sessLe :=
    List.sorted_insertionSort sessLe S
  have hndT : ∀ s ∈ S.insertionSort sessLe, s.Inicio_Min < s.Fin_Min :=
    fun s hs => hnd s (hperm.mem_iff.mp hs)
  have hiff : (S.insertionSort sessLe).Pairwise (fun a b => ¬ Overlaps a b) ↔
      S.Pairwise (fun a b => ¬ Overlaps a b) :=
    hperm.pairwise_iff (fun h hov => h hov.symm)
  constructor
  · intro hpass
    refine hiff.mp ?_
    have hsep := pairwise_sep_of_conflictPass _ hsort hndT hpass
    refine hsep.imp ?_
    intro a b hsep ⟨hd, _, h2⟩
    exact absurd (hsep hd) (by omega)
  · intro hpw
    exact conflictPass_false_of_pairwise _ hsort hndT (hiff.mpr hpw)

/-! ### Lemmas: the idle-time scorer -/

/-- A sorted permutation of a list whose sort keys are pairwise distinct
is unique. -/
theorem sorted_eq_of_perm_of_nodup_keys :
    ∀ l1 l2 : List Session, l1.Perm l2 → l1.Pairwise sessLe →
      l2.Pairwise sessLe → (l1.map sessKey).Nodup → l1 = l2 := by
  intro l1
  induction l1 with
  | nil =>
    intro l2 hperm _ _ _
    exact (hperm.nil_eq).symm.symm
  | cons a t1 ih =>
    intro l2 hperm hs1 hs2 hnd
    cases l2 with
    | nil => exact absurd hperm.symm.nil_eq (by simp)
    | cons b t2 =>
      by_cases hab : a = b
      · subst hab
        have htails : t1.Perm t2 := hperm.cons_inv
        have := ih t2 htails hs1.tail hs2.tail (by
          simpa using (List.nodup_cons.mp (by simpa using hnd)).2)
        rw [this]
      · exfalso
        have hain : a ∈ t2 := by
          have : a ∈ b :: t2 := hperm.mem_iff.mp (List.mem_cons_self a t1)
          rcases List.mem_cons.mp this with h | h
          · exact absurd h hab
          · exact h
        have hbin : b ∈ t1 := by
          have : b ∈ a :: t1 := hperm.symm.mem_iff.mp (List.mem_cons_self b t2)
          rcases List.mem_cons.mp this with h | h
          · exact absurd h.symm hab
          · exact h
        have h1 : sessLe a b := (List.pairwise_cons.mp hs1).1 b hbin
        have h2 : sessLe b a := (List.pairwise_cons.mp hs2).1 a hain
        have hkey : sessKey a = sessKey b := by
          have := sessLe_antisymm_key h1 h2
          simp [sessKey, this.1, this.2]
        have : sessKey a ∈ t1.map sessKey := by
          rw [hkey]
          exact List.mem_map_of_mem sessKey hbin
        exact (List.nodup_cons.mp (by simpa using hnd)).1 this

theorem gapPass_eq_gapsSpecInt : ∀ l : List Session,
    (gapPass l : Int) = gapsSpecInt l := by
  intro l
  induction l with
  | nil => rfl
  | cons c1 t ih =>
    cases t with
    | nil => rfl
    | cons c2 rest =>
      simp only [gapPass, gapsSpecInt]
      rw [← ih]
      push_cast
      split_ifs with hd hlt
      · omega
      · omega
      · omega

/-! ### Lemmas: the branches of find_schedules -/

instance : IsTrans (Nat × List GroupOption) scoreLe :=
  ⟨fun _ _ _ hab hbc => le_trans hab hbc⟩

instance : IsTotal (Nat × List GroupOption) scoreLe :=
  ⟨fun a b => Nat.le_total a.1 b.1⟩

theorem find_schedules_eq_invalid (df : List Session) (sl : List String)
    (tf : String) (h : materiasInvalidas df sl ≠ []) :
    find_schedules df sl tf = .invalidName (materiasInvalidas df sl) := by
  simp [find_schedules, h]

theorem find_schedules_eq_noGroups (df : List Session) (sl : List String)
    (tf : String) (h1 : materiasInvalidas df sl = [])
    (h2 : sinGrupos df sl tf ≠ []) :
    find_schedules df sl tf = .noGroupsInShift (sinGrupos df sl tf) := by
  simp [find_schedules, h1, h2]

theorem sinGrupos_nil_filter (df : List Session) (sl : List String)
    (tf : String) (h : sinGrupos df sl tf = []) :
    sl.filter (fun s => !(gruposDe df s tf).isEmpty) = sl := by
  refine List.filter_eq_self.mpr ?_
  intro s hs
  have := List.filter_eq_nil_iff.mp h s hs
  simp only [Bool.not_eq_true'] at this ⊢
  simpa using this

theorem find_schedules_eq_main (df : List Session) (sl : List String)
    (tf : String) (h1 : materiasInvalidas df sl = [])
    (h2 : sinGrupos df sl tf = []) (h3 : sl ≠ []) :
    find_schedules df sl tf =
      .ok ((validSchedules df sl tf).insertionSort scoreLe) := by
  have hfil := sinGrupos_nil_filter df sl tf h2
  have hlen : (allSubjectGroups df sl tf).length = sl.length := by
    simp [allSubjectGroups, hfil]
  have hne : (allSubjectGroups df sl tf).isEmpty = false := by
    simp only [allSubjectGroups, hfil]
    cases sl with
    | nil => exact absurd rfl h3
    | cons s t => simp
  simp [find_schedules, h1, h2, hne, hlen]

theorem find_schedules_ok_inv (df : List Session) (sl : List String)
    (tf : String) (l : List (Nat × List GroupOption))
    (h : find_schedules df sl tf = .ok l) :
    materiasInvalidas df sl = [] ∧ sinGrupos df sl tf = [] ∧
      ((sl = [] ∧ l = []) ∨
        l = (validSchedules df sl tf).insertionSort scoreLe) := by
  by_cases h1 : materiasInvalidas df sl = []
  · by_cases h2 : sinGrupos df sl tf = []
    · refine ⟨h1, h2, ?_⟩
      by_cases h3 : sl = []
      · subst h3
        left
        refine ⟨rfl, ?_⟩
        have : find_schedules df [] tf = .ok [] := by
          simp [find_schedules, materiasInvalidas, sinGrupos, allSubjectGroups]
        rw [this] at h
        exact (FindResult.ok.injEq _ _).mp h.symm
      · right
        rw [find_schedules_eq_main df sl tf h1 h2 h3] at h
        exact ((FindResult.ok.injEq _ _).mp h).symm
    · rw [find_schedules_eq_noGroups df sl tf h1 h2] at h
      exact absurd h (by simp)
  · rw [find_schedules_eq_invalid df sl tf h1] at h
    exact absurd h (by simp)

theorem mem_validSchedules (df : List Session) (sl : List String)
    (tf : String) (p : Nat × List GroupOption)
    (h : p ∈ validSchedules df sl tf) :
    p.2 ∈ candidateCombos df sl tf ∧
      check_conflict (flattenCombo p.2) = false ∧
      p.1 = calculate_gaps (flattenCombo p.2) := by
  obtain ⟨c, hc, heq⟩ := List.mem_filterMap.mp h
  by_cases hconf : check_conflict (flattenCombo c) = true
  · rw [if_pos hconf] at heq
    exact absurd heq (by simp)
  · rw [if_neg hconf] at heq
    obtain rfl := (Option.some.injEq _ _).mp heq.symm
    exact ⟨hc, by simpa using hconf, rfl⟩

/-- Stability of the final sort: the entries of any fixed score, in the
sorted output, are exactly the entries of that score in generation
order. -/
theorem insertionSort_filter_score (L : List (Nat × List GroupOption))
    (n : Nat) :
    (L.insertionSort scoreLe).filter (fun p => p.1 == n) =
      L.filter (fun p => p.1 == n) := by
  have hperm : (L.insertionSort scoreLe).Perm L := L.perm_insertionSort scoreLe
  have hpw : (L.filter (fun p => p.1 == n)).Pairwise scoreLe := by
    refine List.pairwise_of_forall_mem_list ?_
    intro a ha b hb
    have ha' := (List.mem_filter.mp ha).2
    have hb' := (List.mem_filter.mp hb).2
    simp only [beq_iff_eq] at ha' hb'
    simp [scoreLe, ha', hb']
  have hsub : List.Sublist (L.filter (fun p => p.1 == n))
      (L.insertionSort scoreLe) :=
    List.sublist_insertionSort hpw (List.filter_sublist L)
  have hidem : (L.filter (fun p => p.1 == n)).filter (fun p => p.1 == n) =
      L.filter (fun p => p.1 == n) := by
    rw [List.filter_filter]
    exact List.filter_congr (fun a _ => by rw [Bool.and_self])
  have hsub2 : List.Sublist (L.filter (fun p => p.1 == n))
      ((L.insertionSort scoreLe).filter (fun p => p.1 == n)) := by
    have h := hsub.filter (fun p => p.1 == n)
    rwa [hidem] at h
  have hlen : (L.filter (fun p => p.1 == n)).length =
      ((L.insertionSort scoreLe).filter (fun p => p.1 == n)).length :=
    ((hperm.filter (fun p => p.1 == n)).length_eq).symm
  exact (hsub2.eq_of_length hlen).symm

/-! ### Lemmas: the best-tracking loop of the intelligent mode -/

theorem IsFirstMin.head {r : Nat × List GroupOption}
    {t : List (Nat × List GroupOption)} (h : ∀ y ∈ t, r.1 ≤ y.1) :
    IsFirstMin r (r :: t) :=
  ⟨[], t, rfl, by simp, h⟩

theorem IsFirstMin.cons_lt {r x : Nat × List GroupOption}
    {t : List (Nat × List GroupOption)} (h : IsFirstMin r t)
    (hx : r.1 < x.1) : IsFirstMin r (x :: t) := by
  obtain ⟨l1, l2, rfl, h1, h2⟩ := h
  refine ⟨x :: l1, l2, rfl, ?_, h2⟩
  intro b hb
  rcases List.mem_cons.mp hb with rfl | hb
  · exact hx
  · exact h1 b hb

theorem foldl_iaVisit_eq (df : List Session) (mandatory : List String)
    (turno : String) :
    ∀ (combos : List (List String)) (acc : Option (Nat × List GroupOption)),
      combos.foldl (iaVisit df mandatory turno) acc =
        (iaBests df mandatory turno combos).foldl iaStep acc := by
  intro combos
  induction combos with
  | nil => intro acc; simp [iaBests]
  | cons c t ih =>
    intro acc
    simp only [List.foldl_cons, iaBests, List.filterMap_cons]
    cases hfind : find_schedules df (mandatory ++ c) turno with
    | invalidName ns => simpa [iaVisit, hfind, iaBests] using ih acc
    | noGroupsInShift ns => simpa [iaVisit, hfind, iaBests] using ih acc
    | ok l =>
      cases l with
      | nil => simpa [iaVisit, hfind, iaBests] using ih acc
      | cons s rest =>
        simpa [iaVisit, hfind, iaBests] using ih (iaStep acc s)

theorem foldl_iaStep_isSome :
    ∀ (t : List (Nat × List GroupOption)) (b : Nat × List GroupOption),
      (t.foldl iaStep (some b)).isSome = true := by
  intro t
  induction t with
  | nil => intro b; rfl
  | cons y t ih =>
    intro b
    simp only [List.foldl_cons, iaStep]
    by_cases hy : y.1 < b.1
    · rw [if_pos hy]; exact ih y
    · rw [if_neg hy]; exact ih b

theorem foldl_iaStep_some :
    ∀ (l : List (Nat × List GroupOption)) (b r : Nat × List GroupOption),
      l.foldl iaStep (some b) = some r →
        (r = b ∧ ∀ x ∈ l, b.1 ≤ x.1) ∨ (IsFirstMin r l ∧ r.1 < b.1) := by
  intro l
  induction l with
  | nil =>
    intro b r h
    left
    exact ⟨((Option.some.injEq _ _).mp h).symm, by simp⟩
  | cons x t ih =>
    intro b r h
    simp only [List.foldl_cons, iaStep] at h
    by_cases hx : x.1 < b.1
    · rw [if_pos hx] at h
      rcases ih x r h with ⟨rfl, hall⟩ | ⟨hmin, hlt⟩
      · right
        exact ⟨IsFirstMin.head hall, hx⟩
      · right
        exact ⟨hmin.cons_lt (by omega), by omega⟩
    · rw [if_neg hx] at h
      rcases ih b r h with ⟨rfl, hall⟩ | ⟨hmin, hlt⟩
      · left
        refine ⟨rfl, ?_⟩
        intro y hy
        rcases List.mem_cons.mp hy with rfl | hy
        · omega
        · exact hall y hy
      · right
        exact ⟨hmin.cons_lt (by omega), hlt⟩

theorem run_app_ia_none_iff (df : List Session) (mandatory : List String)
    (turno : String) (combos : List (List String)) :
    run_app_ia df mandatory turno combos = none ↔
      iaBests df mandatory turno combos = [] := by
  rw [run_app_ia, foldl_iaVisit_eq]
  cases hb : iaBests df mandatory turno combos with
  | nil => simp
  | cons x t =>
    simp only [List.foldl_cons]
    constructor
    · intro h
      have := foldl_iaStep_isSome t x
      rw [show iaStep none x = some x from rfl] at h
      rw [h] at this
      exact absurd this (by simp)
    · intro h
      exact absurd h (by simp)

theorem run_app_ia_some (df : List Session) (mandatory : List String)
    (turno : String) (combos : List (List String))
    (r : Nat × List GroupOption)
    (h : run_app_ia df mandatory turno combos = some r) :
    IsFirstMin r (iaBests df mandatory turno combos) := by
  rw [run_app_ia, foldl_iaVisit_eq] at h
  cases hb : iaBests df mandatory turno combos with
  | nil =>
    rw [hb] at h
    exact absurd h (by simp)
  | cons x t =>
    rw [hb] at h
    simp only [List.foldl_cons] at h
    rw [show iaStep none x = some x from rfl] at h
    rcases foldl_iaStep_some t x r h with ⟨rfl, hall⟩ | ⟨hmin, hlt⟩
    · exact IsFirstMin.head hall
    · exact hmin.cons_lt hlt

/-! ### Lemmas: combination enumeration -/

theorem length_combinationsL {α : Type} :
    ∀ (l : List α) (n : Nat),
      (combinationsL n l).length = l.length.choose n := by
  intro l
  induction l with
  | nil =>
    intro n
    cases n with
    | zero => simp [combinationsL]
    | succ n => simp [combinationsL, Nat.choose]
  | cons x xs ih =>
    intro n
    cases n with
    | zero => simp [combinationsL]
    | succ n =>
      simp only [combinationsL, List.length_append, List.length_map,
        List.length_cons, Nat.choose_succ_succ, ih]

theorem mem_combinationsL {α : Type} :
    ∀ (l : List α) (n : Nat) (c : List α), c ∈ combinationsL n l →
      c.length = n ∧ List.Sublist c l := by
  intro l
  induction l with
  | nil =>
    intro n c hc
    cases n with
    | zero =>
      simp only [combinationsL, List.mem_singleton] at hc
      subst hc
      exact ⟨rfl, List.nil_sublist []⟩
    | succ n => simp [combinationsL] at hc
  | cons x xs ih =>
    intro n c hc
    cases n with
    | zero =>
      simp only [combinationsL, List.mem_singleton] at hc
      subst hc
      exact ⟨rfl, List.nil_sublist _⟩
    | succ n =>
      rcases List.mem_append.mp hc with hc | hc
      · obtain ⟨c', hc', rfl⟩ := List.mem_map.mp hc
        obtain ⟨hlen, hsub⟩ := ih n c' hc'
        exact ⟨by simp [hlen], hsub.cons₂ x⟩
      · obtain ⟨hlen, hsub⟩ := ih (n + 1) c hc
        exact ⟨hlen, hsub.cons x⟩

theorem nodup_combinationsL {α : Type} [DecidableEq α] :
    ∀ (l : List α) (n : Nat), l.Nodup → (combinationsL n l).Nodup := by
  intro l
  induction l with
  | nil =>
    intro n _
    cases n with
    | zero => simp [combinationsL]
    | succ n => simp [combinationsL]
  | cons x xs ih =>
    intro n hnd
    cases n with
    | zero => simp [combinationsL]
    | succ n =>
      have hx : x ∉ xs := (List.nodup_cons.mp hnd).1
      have hxs : xs.Nodup := (List.nodup_cons.mp hnd).2
      simp only [combinationsL]
      refine List.Nodup.append ?_ (ih (n + 1) hxs) ?_
      · exact (ih n hxs).map (fun a b hab => by
          simpa using (List.cons.injEq x a x b).mp hab)
      · intro c hc1 hc2
        obtain ⟨c', _, rfl⟩ := List.mem_map.mp hc1
        have hsub := (mem_combinationsL xs (n + 1) _ hc2).2
        have : x ∈ xs := hsub.mem (List.mem_cons_self x c')
        exact hx this

/-! ### Lemmas: bounds of the parsed minute values -/

theorem digitVal_le (c : Char) (h : c.isDigit = true) : digitVal c ≤ 9 := by
  simp only [Char.isDigit, Bool.and_eq_true, decide_eq_true_eq, ge_iff_le] at h
  have h2 : c.toNat ≤ 57 := h.2
  simp only [digitVal]
  omega

theorem matchAt_bound (cs : List Char) (h m : Nat) (rest : List Char)
    (heq : matchAt cs = some (h, m, rest)) : h ≤ 99 ∧ m ≤ 99 := by
  match cs with
  | c1 :: c2 :: c3 :: c4 :: c5 :: tail =>
    simp only [matchAt] at heq
    split_ifs at heq with h1 h2
    · simp only [Bool.and_eq_true] at h1
      obtain ⟨⟨⟨⟨d1, d2⟩, _⟩, d4⟩, d5⟩ := h1
      obtain ⟨rfl, rfl, rfl⟩ :
          digitVal c1 * 10 + digitVal c2 = h ∧
          digitVal c4 * 10 + digitVal c5 = m ∧ tail = rest := by
        simpa using heq
      have := digitVal_le c1 d1
      have := digitVal_le c2 d2
      have := digitVal_le c4 d4
      have := digitVal_le c5 d5
      omega
    · simp only [Bool.and_eq_true] at h2
      obtain ⟨⟨⟨d1, _⟩, d3⟩, d4⟩ := h2
      obtain ⟨rfl, rfl, _⟩ :
          digitVal c1 = h ∧ digitVal c3 * 10 + digitVal c4 = m ∧
          c5 :: tail = rest := by
        simpa using heq
      have := digitVal_le c1 d1
      have := digitVal_le c3 d3
      have := digitVal_le c4 d4
      omega
  | [c1, c2, c3, c4] =>
    simp only [matchAt] at heq
    split_ifs at heq with h1
    · simp only [Bool.and_eq_true] at h1
      obtain ⟨⟨⟨d1, _⟩, d3⟩, d4⟩ := h1
      obtain ⟨rfl, rfl, _⟩ :
          digitVal c1 = h ∧ digitVal c3 * 10 + digitVal c4 = m ∧
          ([] : List Char) = rest := by
        simpa using heq
      have := digitVal_le c1 d1
      have := digitVal_le c3 d3
      have := digitVal_le c4 d4
      omega
  | [] => exact absurd heq (by simp [matchAt])
  | [c1] => exact absurd heq (by simp [matchAt])
  | [c1, c2] => exact absurd heq (by simp [matchAt])
  | [c1, c2, c3] => exact absurd heq (by simp [matchAt])

theorem findPairsAux_bound :
    ∀ (fuel : Nat) (cs : List Char) (p : Nat × Nat),
      p ∈ findPairsAux fuel cs → p.1 ≤ 99 ∧ p.2 ≤ 99 := by
  intro fuel
  induction fuel with
  | zero => intro cs p hp; simp [findPairsAux] at hp
  | succ fuel ih =>
    intro cs p hp
    cases cs with
    | nil => simp [findPairsAux] at hp
    | cons c rest =>
      simp only [findPairsAux] at hp
      cases hm : matchAt (c :: rest) with
      | none =>
        rw [hm] at hp
        exact ih rest p hp
      | some t =>
        obtain ⟨h, m, restAfter⟩ := t
        rw [hm] at hp
        rcases List.mem_cons.mp hp with rfl | hp'
        · exact matchAt_bound (c :: rest) h m restAfter hm
        · exact ih restAfter p hp'

theorem parse_time_to_minutes_bound (s : String) (a b : Nat)
    (h : parse_time_to_minutes s = some (a, b)) :
    a ≤ 6039 ∧ b ≤ 6039 := by
  simp only [parse_time_to_minutes] at h
  split at h
  · next h1 m1 h2 m2 hfp =>
    have hm1 : (h1, m1) ∈ findPairs (cleanChars s) := by rw [hfp]; simp
    have hm2 : (h2, m2) ∈ findPairs (cleanChars s) := by rw [hfp]; simp
    have b1 := findPairsAux_bound _ _ _ hm1
    have b2 := findPairsAux_bound _ _ _ hm2
    obtain ⟨rfl, rfl⟩ : h1 * 60 + m1 = a ∧ h2 * 60 + m2 = b := by
      simpa using h
    simp only at b1 b2
    omega
  · exact absurd h (by simp)

theorem meltDay_bound (rows : List RawRow) (d : String)
    (cell : RawRow → Option String) (s : Session)
    (h : s ∈ meltDay rows d cell) :
    s.Inicio_Min ≤ 6039 ∧ s.Fin_Min ≤ 6039 := by
  obtain ⟨r, _, heq⟩ := List.mem_filterMap.mp h
  cases hb : (cell r).bind parse_time_to_minutes with
  | none => rw [hb] at heq; exact absurd heq (by simp)
  | some ie =>
    obtain ⟨i, e⟩ := ie
    rw [hb] at heq
    obtain ⟨str, _, hparse⟩ := Option.bind_eq_some.mp hb
    have hbd := parse_time_to_minutes_bound str i e hparse
    obtain rfl : _ = s := (Option.some.injEq _ _).mp heq
    exact hbd

/-- C9 (amended): every session the catalog construction produces has
start and end minutes of the form hour times sixty plus minute with both
components of at most two digits, hence at most 6039.  The stated
data-model invariant (start in the range zero to 1440, end after start)
is not enforced by the code: the counterexample shows a catalog session
whose end precedes its start. -/
theorem load_bound (rows : List RawRow) (s : Session)
    (h : s ∈ load_and_preprocess_data rows) :
    s.Inicio_Min ≤ 6039 ∧ s.Fin_Min ≤ 6039 := by
  simp only [load_and_preprocess_data, List.mem_append] at h
  rcases h with ((((h | h) | h) | h) | h) | h
  all_goals exact meltDay_bound _ _ _ _ h

/-! ### Lemmas: the flexibility ranking -/

theorem map_fst_map_pair {α β : Type} (g : α → β) (l : List α) :
    (l.map (fun m => (m, g m))).map (fun p : α × β => p.1) = l := by
  induction l with
  | nil => rfl
  | cons a t ih => simp only [List.map_cons, ih]

theorem map_fst_get_available_perm (df : List Session) (turno : String) :
    ((get_available_optatives df turno).map (fun p => p.1)).Perm
      (availableElectives df turno) := by
  rw [get_available_optatives]
  refine ((List.perm_insertionSort countGe _).map _).trans ?_
  exact List.Perm.of_eq (map_fst_map_pair _ _)

theorem nodup_topFlexible (df : List Session) (turno : String) :
    (topFlexible df turno).Nodup := by
  have h1 : ((get_available_optatives df turno).map (fun p => p.1)).Nodup :=
    (map_fst_get_available_perm df turno).nodup_iff.mpr
      (nodup_uniqueFirst _)
  exact h1.sublist (List.take_sublist _ _)

theorem length_topFlexible (df : List Session) (turno : String) :
    (topFlexible df turno).length =
      min TOP_N_FLEXIBLES (availableElectives df turno).length := by
  rw [topFlexible, List.length_take, List.length_map,
    get_available_optatives]
  simp [List.length_insertionSort]

theorem find_schedules_nil (df : List Session) (tf : String) :
    find_schedules df [] tf = .ok [] := by
  simp [find_schedules, materiasInvalidas, sinGrupos, allSubjectGroups]

/-! ### Concrete data for witnesses and counterexamples -/

/-- A morning session of subject X, 08:00 to 09:30 on Monday. -/
def exS1 : Session :=
  { Semestre := 1, Materia := "X", Grupo := "1", Turno := "M",
    Dia := "Lunes", Inicio_Min := 480, Fin_Min := 570 }

/-- A back-to-back session: it starts exactly when exS1 ends. -/
def exS2 : Session :=
  { Semestre := 1, Materia := "Y", Grupo := "1", Turno := "M",
    Dia := "Lunes", Inicio_Min := 570, Fin_Min := 600 }

/-- Sessions with a duplicated sort key: gapA and gapB share day and
start minute but end at different times. -/
def gapA : Session :=
  { Semestre := 1, Materia := "A", Grupo := "1", Turno := "M",
    Dia := "Lunes", Inicio_Min := 0, Fin_Min := 10 }

def gapB : Session :=
  { Semestre := 1, Materia := "B", Grupo := "1", Turno := "M",
    Dia := "Lunes", Inicio_Min := 0, Fin_Min := 50 }

def gapC : Session :=
  { Semestre := 1, Materia := "C", Grupo := "1", Turno := "M",
    Dia := "Lunes", Inicio_Min := 60, Fin_Min := 70 }

/-- A catalog with one subject in two groups whose schedules both have
idle score zero: a scoring tie. -/
def dfTie : List Session :=
  [{ Semestre := 1, Materia := "X", Grupo := "1", Turno := "M",
     Dia := "Lunes", Inicio_Min := 0, Fin_Min := 60 },
   { Semestre := 1, Materia := "X", Grupo := "2", Turno := "M",
     Dia := "Lunes", Inicio_Min := 120, Fin_Min := 180 }]

/-- The two group options of dfTie. -/
def tieOpt1 : GroupOption :=
  { Materia := "X", Grupo := "1",
    Clases := [{ Semestre := 1, Materia := "X", Grupo := "1", Turno := "M",
                 Dia := "Lunes", Inicio_Min := 0, Fin_Min := 60 }] }

def tieOpt2 : GroupOption :=
  { Materia := "X", Grupo := "2",
    Clases := [{ Semestre := 1, Materia := "X", Grupo := "2", Turno := "M",
                 Dia := "Lunes", Inicio_Min := 120, Fin_Min := 180 }] }

/-- A catalog whose single group conflicts with itself, so every
candidate combination conflicts. -/
def dfConf : List Session :=
  [{ Semestre := 1, Materia := "X", Grupo := "1", Turno := "M",
     Dia := "Lunes", Inicio_Min := 0, Fin_Min := 100 },
   { Semestre := 1, Materia := "X", Grupo := "1", Turno := "M",
     Dia := "Lunes", Inicio_Min := 50, Fin_Min := 150 }]

/-- A catalog with exactly two electives (semester zero). -/
def dfElec : List Session :=
  [{ Semestre := 0, Materia := "OptA", Grupo := "1", Turno := "M",
     Dia := "Lunes", Inicio_Min := 0, Fin_Min := 60 },
   { Semestre := 0, Materia := "OptB", Grupo := "1", Turno := "M",
     Dia := "Lunes", Inicio_Min := 120, Fin_Min := 180 }]

/-- A raw row whose Monday cell parses to a reversed interval. -/
def badRow : RawRow :=
  { Semestre := 1, Materia := "X", Turno := "M", Grupo := "1",
    Lunes := some "09,00 - 08,00", Martes := none, Miercoles := none,
    Jueves := none, Viernes := none, Sabado := none }

/-- A raw row whose Monday cell parses to a well-formed interval. -/
def okRow : RawRow :=
  { Semestre := 1, Materia := "X", Turno := "M", Grupo := "1",
    Lunes := some "08,00 - 09,30", Martes := none, Miercoles := none,
    Jueves := none, Viernes := none, Sabado := none }

/-- The session okRow yields. -/
def okSession : Session :=
  { Semestre := 1, Materia := "X", Grupo := "1", Turno := "M",
    Dia := "Lunes", Inicio_Min := 480, Fin_Min := 570 }

/-! ### The claims -/

theorem check_conflict_false_iff_witness :
    check_conflict [exS1, exS2] = false ↔
      List.Pairwise (fun a b => ¬ Overlaps a b) [exS1, exS2] :=
  check_conflict_false_iff [exS1, exS2] (by decide)

/-- C2: whenever find_schedules returns a ranked list, every entry of the
list flattens to a conflict-free schedule; and when validation passes
but every candidate combination conflicts, find_schedules returns the
empty ranked list rather than a failure value. -/
theorem find_schedules_conflict_free (df : List Session)
    (sl : List String) (tf : String) :
    (∀ l, find_schedules df sl tf = .ok l →
      ∀ p ∈ l, check_conflict (flattenCombo p.2) = false) ∧
    (materiasInvalidas df sl = [] → sinGrupos df sl tf = [] →
      (∀ c ∈ candidateCombos df sl tf,
        check_conflict (flattenCombo c) = true) →
      find_schedules df sl tf = .ok []) := by
  constructor
  · intro l h p hp
    obtain ⟨h1, h2, hcase⟩ := find_schedules_ok_inv df sl tf l h
    rcases hcase with ⟨_, rfl⟩ | rfl
    · simp at hp
    · exact (mem_validSchedules df sl tf p
        ((List.mem_insertionSort scoreLe).mp hp)).2.1
  · intro h1 h2 hall
    have hvalid : validSchedules df sl tf = [] :=
      List.filterMap_eq_nil_iff.mpr (fun c hc => by rw [if_pos (hall c hc)])
    by_cases hsl : sl = []
    · subst hsl; exact find_schedules_nil df tf
    · rw [find_schedules_eq_main df sl tf h1 h2 hsl, hvalid]
      rfl

theorem find_schedules_conflict_free_witness :
    find_schedules dfConf ["X"] "Mixto" = .ok [] :=
  (find_schedules_conflict_free dfConf ["X"] "Mixto").2 (by decide) (by decide)
    (by decide)

/-- C3: the ranked list find_schedules returns is sorted ascending by
idle score, and within any fixed score its entries appear exactly in the
order their combinations were generated by the cross product over the
groups in catalog order.  The output is a function of the inputs, hence
deterministic. -/
theorem find_schedules_sorted_stable (df : List Session) (sl : List String)
    (tf : String) (l : List (Nat × List GroupOption)) (n : Nat)
    (h : find_schedules df sl tf = .ok l) (hsl : sl ≠ []) :
    l.Pairwise scoreLe ∧
      l.filter (fun p => p.1 == n) =
        (validSchedules df sl tf).filter (fun p => p.1 == n) := by
  obtain ⟨h1, h2, hcase⟩ := find_schedules_ok_inv df sl tf l h
  rcases hcase with ⟨hnil, _⟩ | rfl
  · exact absurd hnil hsl
  · exact ⟨List.sorted_insertionSort scoreLe _, insertionSort_filter_score _ n⟩

theorem find_schedules_sorted_stable_witness :
    List.Pairwise scoreLe [(0, [tieOpt1]), (0, [tieOpt2])] ∧
      List.filter (fun p => p.1 == 0) [(0, [tieOpt1]), (0, [tieOpt2])] =
        (validSchedules dfTie ["X"] "Mixto").filter (fun p => p.1 == 0) :=
  find_schedules_sorted_stable dfTie ["X"] "Mixto"
    [(0, [tieOpt1]), (0, [tieOpt2])] 0 (by decide) (by decide)

/-- C4: the intelligent mode evaluates find_schedules once per elective
combination; it returns none exactly when no combination yields a
non-empty ranked list, and otherwise returns the first, in enumeration
order, of the per-combination best entries achieving the minimal idle
score: everything enumerated before it scores strictly higher and
everything after scores no lower. -/
theorem run_app_ia_spec (df : List Session) (mandatory : List String)
    (turno : String) (combos : List (List String)) :
    (run_app_ia df mandatory turno combos = none ↔
      iaBests df mandatory turno combos = []) ∧
    ∀ r, run_app_ia df mandatory turno combos = some r →
      IsFirstMin r (iaBests df mandatory turno combos) :=
  ⟨run_app_ia_none_iff df mandatory turno combos,
   fun r h => run_app_ia_some df mandatory turno combos r h⟩

theorem run_app_ia_spec_witness :
    IsFirstMin (0, [tieOpt1]) (iaBests dfTie ["X"] "Mixto" [[]]) :=
  (run_app_ia_spec dfTie ["X"] "Mixto" [[]]).2 (0, [tieOpt1]) (by decide)

/-- Membership form of the contains test the engine performs against the
distinct subject names of the catalog. -/
theorem materiasEnCsv_contains (df : List Session) (x : String) :
    (materiasEnCsv df).contains x = true ↔ ∃ r ∈ df, r.Materia = x := by
  rw [materiasEnCsv]
  simp only [List.elem_iff, mem_uniqueFirst, List.mem_map]

/-- C5: when some requested subject is absent from the catalog,
find_schedules returns the INVALID_NAME failure carrying exactly the
requested names absent from the catalog, all of them at once; and this
value does not depend on the shift filter, since the check precedes all
shift filtering and group work. -/
theorem find_schedules_unknown (df : List Session) (sl : List String)
    (tf : String) (h : materiasInvalidas df sl ≠ []) :
    find_schedules df sl tf = .invalidName (materiasInvalidas df sl) ∧
    (∀ x, x ∈ materiasInvalidas df sl ↔
      x ∈ sl ∧ ∀ r ∈ df, r.Materia ≠ x) ∧
    (∀ tf2, find_schedules df sl tf2 = find_schedules df sl tf) := by
  refine ⟨find_schedules_eq_invalid df sl tf h, ?_, ?_⟩
  · intro x
    rw [materiasInvalidas, List.mem_filter]
    refine and_congr_right fun _ => ?_
    rw [Bool.not_eq_true']
    rw [← Bool.not_eq_true, materiasEnCsv_contains]
    push_neg
    rfl
  · intro tf2
    rw [find_schedules_eq_invalid df sl tf h,
      find_schedules_eq_invalid df sl tf2 h]

theorem find_schedules_unknown_witness :
    find_schedules dfTie ["Nope"] "Mixto" =
      .invalidName (materiasInvalidas dfTie ["Nope"]) :=
  (find_schedules_unknown dfTie ["Nope"] "Mixto" (by decide)).1

/-- Emptiness of the group list of a subject under the shift filter, in
membership form. -/
theorem gruposDe_isEmpty_iff (df : List Session) (x tf : String) :
    (gruposDe df x tf).isEmpty = true ↔
      ∀ r ∈ df, ¬(r.Materia = x ∧ turnoMatches tf r.Turno = true) := by
  rw [List.isEmpty_iff, gruposDe, uniqueFirst_eq_nil, List.map_eq_nil_iff,
    List.filter_filter]
  rw [List.filter_eq_nil_iff]
  constructor
  · intro hn r hr ⟨hm, ht⟩
    exact hn r hr (by simp [hm, ht])
  · intro hn r hr hb
    simp only [Bool.and_eq_true, beq_iff_eq] at hb
    exact hn r hr ⟨hb.2, hb.1⟩

/-- C6: when every requested subject exists but some has no group under
the shift filter, find_schedules returns the NO_GROUPS_IN_SHIFT failure
carrying exactly the requested subjects with no session under the
filter; this failure is a different constructor from the INVALID_NAME
failure for unknown subjects. -/
theorem find_schedules_no_groups (df : List Session) (sl : List String)
    (tf : String) (h1 : materiasInvalidas df sl = [])
    (h2 : sinGrupos df sl tf ≠ []) :
    find_schedules df sl tf = .noGroupsInShift (sinGrupos df sl tf) ∧
    (∀ x, x ∈ sinGrupos df sl tf ↔
      x ∈ sl ∧ ∀ r ∈ df, ¬(r.Materia = x ∧ turnoMatches tf r.Turno = true)) ∧
    (∀ ns ms, FindResult.noGroupsInShift ns = FindResult.invalidName ms →
      False) := by
  refine ⟨find_schedules_eq_noGroups df sl tf h1 h2, ?_, ?_⟩
  · intro x
    rw [sinGrupos, List.mem_filter]
    exact and_congr_right fun _ => gruposDe_isEmpty_iff df x tf
  · intro ns ms hcontra
    exact FindResult.noConfusion hcontra

theorem find_schedules_no_groups_witness :
    find_schedules dfTie ["X"] "Tarde (T)" =
      .noGroupsInShift (sinGrupos dfTie ["X"] "Tarde (T)") :=
  (find_schedules_no_groups dfTie ["X"] "Tarde (T)" (by decide) (by decide)).1

/-- C7 (counterexample): calculate_gaps is not invariant under input
reordering.  The lists are permutations of each other, their sessions
are all well formed, yet the idle totals differ, because two sessions
share the (day, start) sort key and the stable sort keeps them in input
order, so the two orders pair different end times with the following
session. -/
theorem calculate_gaps_not_perm_invariant :
    List.Perm [gapB, gapA, gapC] [gapA, gapB, gapC] ∧
      calculate_gaps [gapB, gapA, gapC] = 50 ∧
      calculate_gaps [gapA, gapB, gapC] = 10 := by
  refine ⟨by decide, by decide, by decide⟩

/-- C7 (amended): on schedules whose (day, start) sort keys are pairwise
distinct, calculate_gaps is invariant under input reordering; it returns
zero for schedules with at most one session; and its value is the sum,
over same-day adjacent pairs of the sorted schedule, of the larger of
zero and the signed gap, cross-day pairs contributing nothing. -/
theorem calculate_gaps_spec (S : List Session)
    (hkeys : (S.map sessKey).Nodup) :
    (∀ T, T.Perm S → calculate_gaps T = calculate_gaps S) ∧
    (S.length ≤ 1 → calculate_gaps S = 0) ∧
    (calculate_gaps S : Int) = gapsSpecInt (S.insertionSort sessLe) := by
  refine ⟨?_, ?_, gapPass_eq_gapsSpecInt _⟩
  · intro T hTS
    have hperm : (T.insertionSort sessLe).Perm (S.insertionSort sessLe) :=
      (T.perm_insertionSort sessLe).trans
        (hTS.trans (S.perm_insertionSort sessLe).symm)
    have hndS : ((S.insertionSort sessLe).map sessKey).Nodup :=
      (((S.perm_insertionSort sessLe).map sessKey).nodup_iff).mpr hkeys
    have hndT : ((T.insertionSort sessLe).map sessKey).Nodup :=
      ((hperm.map sessKey).nodup_iff).mpr hndS
    have heq := sorted_eq_of_perm_of_nodup_keys
      (T.insertionSort sessLe) (S.insertionSort sessLe) hperm
      (List.sorted_insertionSort sessLe T)
      (List.sorted_insertionSort sessLe S) hndT
    rw [calculate_gaps, calculate_gaps, heq]
  · intro hlen
    match S, hlen with
    | [], _ => rfl
    | [a], _ => rfl

theorem calculate_gaps_spec_witness :
    calculate_gaps [gapC, gapA] = calculate_gaps [gapA, gapC] ∧
      (calculate_gaps [gapA, gapC] : Int) =
        gapsSpecInt ([gapA, gapC].insertionSort sessLe) :=
  ⟨(calculate_gaps_spec [gapA, gapC] (by decide)).1 [gapC, gapA] (by decide),
   (calculate_gaps_spec [gapA, gapC] (by decide)).2.2⟩

/-- C8: the parser maps the string 08,00 - 09,30 to the pair (480, 570)
and the string garbage to none; it returns none whenever the cleaned
input does not contain exactly two hour-comma-minute matches; each match
is converted as hour times sixty plus minute; and the resulting pair is
returned unmodified even when the start does not precede the end. -/
theorem parse_time_to_minutes_spec :
    parse_time_to_minutes "08,00 - 09,30" = some (480, 570) ∧
    parse_time_to_minutes "garbage" = none ∧
    (∀ s : String, (findPairs (cleanChars s)).length ≠ 2 →
      parse_time_to_minutes s = none) ∧
    (∀ (s : String) (h1 m1 h2 m2 : Nat),
      findPairs (cleanChars s) = [(h1, m1), (h2, m2)] →
      parse_time_to_minutes s = some (h1 * 60 + m1, h2 * 60 + m2)) ∧
    parse_time_to_minutes "10,00 - 09,00" = some (600, 540) := by
  refine ⟨by decide, by decide, ?_, ?_, by decide⟩
  · intro s h
    rw [parse_time_to_minutes]
    split
    · next h1 m1 h2 m2 hfp => exact absurd (by rw [hfp]; rfl) h
    · rfl
  · intro s h1 m1 h2 m2 hfp
    rw [parse_time_to_minutes, hfp]

theorem parse_time_to_minutes_spec_witness :
    parse_time_to_minutes "abc" = none :=
  parse_time_to_minutes_spec.2.2.1 "abc" (by decide)

/-- C9 (counterexample): a raw row whose Monday cell reads 09,00 - 08,00
is kept by the catalog construction and yields a session whose end
minute 480 precedes its start minute 540, refuting the claimed invariant
that every catalog session satisfies end after start. -/
theorem load_degenerate_session :
    (load_and_preprocess_data [badRow]).map
        (fun s => (s.Inicio_Min, s.Fin_Min)) = [(540, 480)] ∧
      ¬ ∀ s ∈ load_and_preprocess_data [badRow],
          s.Inicio_Min < s.Fin_Min := by
  refine ⟨by decide, by decide⟩

theorem load_bound_witness :
    okSession.Inicio_Min ≤ 6039 ∧ okSession.Fin_Min ≤ 6039 :=
  load_bound [okRow] okSession (by decide)

/-- C10: the intelligent mode fails with the insufficient-electives
error exactly when the top flexible elective list, capped at
TOP_N_FLEXIBLES entries of the electives available under the shift
filter, is shorter than the requested pool size; otherwise it
enumerates exactly choose of the top list length over the pool size
subsets, each a subsequence of the top list of the requested size, all
distinct: combinations without repetition, not permutations. -/
theorem ia_setup_spec (df : List Session) (tf : String) (count : Nat) :
    (ia_setup df tf count = none ↔ (topFlexible df tf).length < count) ∧
    (topFlexible df tf).length =
      min TOP_N_FLEXIBLES (availableElectives df tf).length ∧
    ∀ L, ia_setup df tf count = some L →
      L.length = Nat.choose (topFlexible df tf).length count ∧
      L.Nodup ∧
      ∀ c ∈ L, c.length = count ∧ List.Sublist c (topFlexible df tf) := by
  refine ⟨?_, length_topFlexible df tf, ?_⟩
  · rw [ia_setup]
    by_cases h : (topFlexible df tf).length < count
    · simp [h]
    · simp [h]
  · intro L hL
    rw [ia_setup] at hL
    split_ifs at hL with h
    obtain rfl : combinationsL count (topFlexible df tf) = L :=
      Option.some.inj hL
    exact ⟨length_combinationsL _ _,
      nodup_combinationsL _ _ (nodup_topFlexible df tf),
      fun c hc => mem_combinationsL _ _ _ hc⟩

theorem ia_setup_spec_witness :
    ([["OptA", "OptB"]] : List (List String)).length =
      Nat.choose (topFlexible dfElec "Mixto").length 2 :=
  (((ia_setup_spec dfElec "Mixto" 2).2.2) [["OptA", "OptB"]] (by decide)).1

end Planificador
